import Mathlib

/-!
# HttpServer (akinaru/socket-multiplatform)

Shallow embedding of `httpserver.cpp`
(`src/server/server-socket/non-blocking/no-ssl/cpp/httpserver/httpserver_impl/`):
the pending-connection queue, the TLS start-up guard, the static socket registry,
the listener fan-out and the frame dispatch loop of `HttpServer::incomingData`.

Conventions of the embedding

* pointers (`QSslSocket*`, `Ihttpframe*`, `IClientEventListener*`) are natural
  numbers (addresses); a null pointer result is `none`;
* `std::vector`, `QQueue` and `QList` are lists, front of the container first;
* the C++ `int` loop index is an `Int`; `std::vector::at` is bounds checked;
* calls made on collaborators (listeners, the Qt socket) are recorded in traces;
* console output (`cout`, `qDebug`) is not part of the model.
-/

/-! ## Data model -/

/-- Address of a `QSslSocket` object (`QSslSocket*`). -/
abbrev QSslSocket := Nat

/-- Address of a registered listener (`IClientEventListener*`). -/
abbrev IClientEventListener := Nat

/-- Modelled from the spec: the frame interface `Ihttpframe`
(`protocol/inter/http`, declared outside the sources at hand). A frame exposes
a completion flag `isFinishedProcessing()` and a classification string
`getMethod()`; `addr` is the address the `Ihttpframe*` points to. The method is a
`std::string`, so it is a sequence of characters that may contain NUL. -/
structure Ihttpframe where
  addr : Nat
  isFinishedProcessing : Bool
  getMethod : List Char
  deriving DecidableEq, Repr

/-- Modelled from the spec: the application-facing wrapper `ClientSocket`
(`clientSocket.h`, declared outside the sources at hand). Only the socket it
wraps matters here; a default-constructed wrapper wraps nothing. -/
structure ClientSocket where
  socketClient : Option QSslSocket := none
  deriving DecidableEq, Repr

/-- The method `ClientSocket::setSocketClient`. -/
def ClientSocket.setSocketClient (_obj : ClientSocket) (socket : QSslSocket) : ClientSocket :=
  { socketClient := some socket }

/-- A `QSslKey` value of Qt; only `isNull()` is consulted, `keyId` tells keys apart. -/
structure QSslKey where
  isNull : Bool
  keyId : Nat
  deriving DecidableEq, Repr

/-- A `QSslCertificate` value of Qt; only `isNull()` is consulted, `certId` tells
certificates apart. -/
structure QSslCertificate where
  isNull : Bool
  certId : Nat
  deriving DecidableEq, Repr

/-- The values of `QAbstractSocket::SocketState`. -/
inductive SocketState where
  | UnconnectedState
  | HostLookupState
  | ConnectingState
  | ConnectedState
  | BoundState
  | ListeningState
  | ClosingState
  deriving DecidableEq, Repr

/-- A call made on a registered listener: which callback, on which listener,
with which wrapper and frame. -/
inductive ListenerCall where
  | onHttpResponseReceived (listener : IClientEventListener) (obj : ClientSocket)
      (frame : Ihttpframe)
  | onHttpRequestReceived (listener : IClientEventListener) (obj : ClientSocket)
      (frame : Ihttpframe)
  deriving DecidableEq, Repr

/-- A call made on a socket. `closeClientSocket` records the entry into
`HttpServer::closeClientSocket`; the others are the Qt calls of the source. -/
inductive SocketCall where
  | closeClientSocket (socket : QSslSocket)
  | close (socket : QSslSocket)
  | delete (socket : QSslSocket)
  | deleteLater (socket : QSslSocket)
  | setPrivateKey (socket : QSslSocket) (key : QSslKey)
  | setLocalCertificate (socket : QSslSocket) (cert : QSslCertificate)
  | addCaCertificates (socket : QSslSocket) (certs : List QSslCertificate)
  | setProtocolAnyProtocol (socket : QSslSocket)
  | startServerEncryption (socket : QSslSocket)
  deriving DecidableEq, Repr

/-- The static registry `std::map<QSslSocket*, ClientSocket>`; the order of the
entries carries no meaning, keys are unique. -/
abbrev SocketMap := List (QSslSocket × ClientSocket)

/-- The entry stored for a key, if any (`std::map::find`). -/
def SocketMap.find (m : SocketMap) (k : QSslSocket) : Option ClientSocket :=
  List.lookup k m

/-- The method `std::map::erase(key)`. -/
def SocketMap.erase (m : SocketMap) (k : QSslSocket) : SocketMap :=
  m.filter (fun p => p.1 != k)

/-- Reading `m[k]`: `std::map::operator[]` returns the stored value, inserting a
default-constructed one first when the key is absent. -/
def SocketMap.subscript (m : SocketMap) (k : QSslSocket) : ClientSocket × SocketMap :=
  match List.lookup k m with
  | some v => (v, m)
  | none => ({}, m ++ [(k, {})])

/-- Writing `m[k] = v`. -/
def SocketMap.assign (m : SocketMap) (k : QSslSocket) (v : ClientSocket) : SocketMap :=
  SocketMap.erase m k ++ [(k, v)]

/-- The members of `HttpServer` the modelled functions read or write.
`consumer` is the frame list of the `httpconsumer` (`getHttpFrameList()`),
`socketClientList` the static registry. -/
structure HttpServer where
  socketClientList : SocketMap := []
  clientEventListenerList : List IClientEventListener := []
  consumer : List Ihttpframe := []
  queue : List QSslSocket := []
  keyCertificate : QSslKey := { isNull := true, keyId := 0 }
  localCertificate : QSslCertificate := { isNull := true, certId := 0 }
  caCertificate : List QSslCertificate := []
  ssl : Bool := false
  deriving DecidableEq, Repr

/-- What the Qt socket that raised the event answers during one handler run:
`isOpen()`, `state()` when `close()` was not called, `state()` after `close()`,
and whether `close()` emits `disconnected()` before it returns (the signal is
connected to `slot_disconnected` in `connectSocketSignals`). -/
structure Transport where
  isOpen : Bool
  state : SocketState
  stateAfterClose : SocketState
  emitsDisconnected : Bool
  deriving DecidableEq, Repr

/-- How a handler run ends: it returns, `std::vector::at` throws
`std::out_of_range`, or the loop model ran out of fuel. -/
inductive Outcome (α : Type) where
  | returned (a : α)
  | outOfRange (a : α)
  | outOfFuel
  deriving DecidableEq, Repr

/-! ## C library and container helpers -/

/-- The part of a character buffer a C string function reads: up to the first NUL. -/
def cstr (s : List Char) : List Char :=
  s.takeWhile (fun c => c.toNat != 0)

/-- Comparison of two NUL-free character sequences as `strcmp` does it. -/
def strcmpAux : List Char → List Char → Int
  | [], [] => 0
  | [], b :: _ => - (b.toNat : Int)
  | a :: _, [] => (a.toNat : Int)
  | a :: as, b :: bs => if a = b then strcmpAux as bs else (a.toNat : Int) - (b.toNat : Int)

/-- The C function `strcmp` on the buffers `std::string::data()` points to. -/
def strcmp (a b : List Char) : Int :=
  strcmpAux (cstr a) (cstr b)

/-- The method `std::vector::at` with an `int` argument: `none` stands for the
`std::out_of_range` exception. The argument is converted to `size_type`; a
negative `int` becomes a value of at least `2^64 - 2^31`, above the `max_size()`
of a vector of pointers, so it is out of range for every vector. The index
`count` itself starts at `size() - 1` and only decreases, so it stays an `int`
for every vector of at most `2^31` frames. -/
def vectorAt {α : Type} (v : List α) (n : Int) : Option α :=
  if n < 0 then none else v[n.toNat]?

/-! ## Operations of `HttpServer` -/

/-- The method `HttpServer::addClientEventListener`: `push_back` on the listener list. -/
def HttpServer.addClientEventListener (s : HttpServer) (clientListener : IClientEventListener) :
    HttpServer :=
  { s with clientEventListenerList := s.clientEventListenerList ++ [clientListener] }

/-- The method `HttpServer::incomingConnection`: a socket object `newSocket` is
created; when `setSocketDescriptor` fails (`adopted = false`) the function returns,
otherwise the socket is enqueued. -/
def HttpServer.incomingConnection (s : HttpServer) (newSocket : QSslSocket) (adopted : Bool) :
    HttpServer :=
  if !adopted then s else { s with queue := s.queue ++ [newSocket] }

/-- The method `HttpServer::nextPendingConnection`: null on an empty queue, else
`QQueue::dequeue` (the head is removed and returned). -/
def HttpServer.nextPendingConnection (s : HttpServer) : Option QSslSocket × HttpServer :=
  match s.queue with
  | [] => (none, s)
  | head :: rest => (some head, { s with queue := rest })

/-- The method `HttpServer::startServerEncryption`, as the calls it makes on the socket. -/
def HttpServer.startServerEncryption (s : HttpServer) (clientSocket : QSslSocket) :
    List SocketCall :=
  if s.keyCertificate.isNull || s.localCertificate.isNull || s.caCertificate.isEmpty then
    [SocketCall.close clientSocket]
  else
    [SocketCall.setPrivateKey clientSocket s.keyCertificate,
     SocketCall.setLocalCertificate clientSocket s.localCertificate,
     SocketCall.addCaCertificates clientSocket s.caCertificate,
     SocketCall.setProtocolAnyProtocol clientSocket,
     SocketCall.startServerEncryption clientSocket]

/-- The slot `HttpServer::slot_disconnected`; `client` is `sender()` cast to a socket. -/
def HttpServer.slot_disconnected (s : HttpServer) (client : Option QSslSocket) :
    HttpServer × List SocketCall :=
  match client with
  | none => (s, [])
  | some c =>
    ({ s with socketClientList := SocketMap.erase s.socketClientList c },
     [SocketCall.deleteLater c])

/-- The method `HttpServer::containsHttpProcessedFrames`. -/
def HttpServer.containsHttpProcessedFrames : List Ihttpframe → Bool
  | [] => false
  | frame :: rest =>
    if frame.isFinishedProcessing then true else HttpServer.containsHttpProcessedFrames rest

/-- The method `HttpServer::closeClientSocket`. -/
def HttpServer.closeClientSocket (s : HttpServer) (t : Transport) (socket : QSslSocket) :
    HttpServer × List SocketCall :=
  let entered := [SocketCall.closeClientSocket socket]
  let afterClose : HttpServer × List SocketCall × SocketState :=
    if t.isOpen then
      let signalled :=
        if t.emitsDisconnected then HttpServer.slot_disconnected s (some socket) else (s, [])
      (signalled.1, entered ++ [SocketCall.close socket] ++ signalled.2, t.stateAfterClose)
    else (s, entered, t.state)
  if afterClose.2.2 = SocketState.UnconnectedState then
    (afterClose.1, afterClose.2.1 ++ [SocketCall.delete socket])
  else (afterClose.1, afterClose.2.1)

/-- The inner `for` loops of `incomingData` (lines 361-374): the frame is handed
to every listener, by index from 0, through the callback chosen by
`strcmp(getMethod().data(), "") == 0`. -/
def HttpServer.notifyListeners (listeners : List IClientEventListener) (obj : ClientSocket)
    (frame : Ihttpframe) : List ListenerCall :=
  if strcmp frame.getMethod [] = 0 then
    listeners.map (fun l => ListenerCall.onHttpResponseReceived l obj frame)
  else
    listeners.map (fun l => ListenerCall.onHttpRequestReceived l obj frame)

/-- The variables of the dispatch loop: the consumer's frame list, the index
`count`, and two records kept for the proofs: the listener calls made so far and
the frames taken out by `pop_back` so far. -/
structure WalkState where
  frameList : List Ihttpframe
  count : Int
  calls : List ListenerCall
  removed : List Ihttpframe
  deriving DecidableEq, Repr

/-- The `while` loop of `incomingData` (lines 356-387). Each unit of fuel pays for
one evaluation of the loop guard. -/
def HttpServer.incomingDataLoop (listeners : List IClientEventListener) (obj : ClientSocket) :
    Nat → WalkState → Outcome WalkState
  | 0, _ => Outcome.outOfFuel
  | fuel + 1, st =>
    if HttpServer.containsHttpProcessedFrames st.frameList then
      match vectorAt st.frameList st.count with
      | none => Outcome.outOfRange st
      | some frame =>
        if frame.isFinishedProcessing then
          HttpServer.incomingDataLoop listeners obj fuel
            { frameList := st.frameList.dropLast
              count := st.count - 1
              calls := st.calls ++ HttpServer.notifyListeners listeners obj frame
              removed := st.removed ++ st.frameList.getLast?.toList }
        else
          HttpServer.incomingDataLoop listeners obj fuel { st with count := st.count - 1 }
    else Outcome.returned st

/-- The state in which the loop is entered: `count = size() - 1`, nothing called,
nothing removed. -/
def HttpServer.walkStart (frameList : List Ihttpframe) : WalkState :=
  { frameList := frameList, count := (frameList.length : Int) - 1, calls := [], removed := [] }

/-- Lines 351-390 of `incomingData`: the `if (size() > 0)` block around the loop.
The loop is run with `size() + 1` units of fuel. -/
def HttpServer.dispatchFrames (listeners : List IClientEventListener) (obj : ClientSocket)
    (frameList : List Ihttpframe) : Outcome WalkState :=
  if frameList.length > 0 then
    HttpServer.incomingDataLoop listeners obj (frameList.length + 1)
      (HttpServer.walkStart frameList)
  else Outcome.returned (HttpServer.walkStart frameList)

/-- What one run of `incomingData` leaves behind. -/
structure PassResult where
  server : HttpServer
  calls : List ListenerCall
  removed : List Ihttpframe
  socketCalls : List SocketCall
  deriving DecidableEq, Repr

/-- The slot `HttpServer::incomingData`. `clientSocket` is `sender()`, `data` what
`readAll()` returns, `httpdecode` the external decoder as a function from the
consumer's frame list and the data to the new frame list, `t` the answers of the
socket. An exception thrown by the loop leaves the function at once. -/
def HttpServer.incomingData (httpdecode : List Ihttpframe → List Nat → List Ihttpframe)
    (t : Transport) (clientSocket : QSslSocket) (data : List Nat) (s : HttpServer) :
    Outcome PassResult :=
  let looked := SocketMap.subscript s.socketClientList clientSocket
  let obj := ClientSocket.setSocketClient looked.1 clientSocket
  let s1 : HttpServer :=
    { s with socketClientList := looked.2, consumer := httpdecode s.consumer data }
  match HttpServer.dispatchFrames s1.clientEventListenerList obj s1.consumer with
  | Outcome.outOfFuel => Outcome.outOfFuel
  | Outcome.outOfRange st =>
    Outcome.outOfRange
      { server := { s1 with consumer := st.frameList }
        calls := st.calls, removed := st.removed, socketCalls := [] }
  | Outcome.returned st =>
    let s2 : HttpServer := { s1 with consumer := st.frameList }
    let closed := HttpServer.closeClientSocket s2 t clientSocket
    Outcome.returned
      { server :=
          { closed.1 with
            socketClientList := SocketMap.assign closed.1.socketClientList clientSocket obj }
        calls := st.calls, removed := st.removed, socketCalls := closed.2 }

/-! ## Vocabulary of the statements -/

/-- Some completed frame sits at a lower position than some incomplete frame. -/
def CompletedBelowIncomplete (frameList : List Ihttpframe) : Prop :=
  ∃ (i j : Nat) (x y : Ihttpframe), i < j ∧ frameList[i]? = some x ∧ x.isFinishedProcessing = true ∧
    frameList[j]? = some y ∧ y.isFinishedProcessing = false

/-- The call a listener is expected to receive for a delivered frame, said without
reference to the code that makes it: the response callback when the method is
empty or begins with NUL, the request callback otherwise, with the wrapper and
the frame as arguments. -/
def HttpServer.callbackFor (obj : ClientSocket) (frame : Ihttpframe)
    (listener : IClientEventListener) : ListenerCall :=
  if frame.getMethod = [] ∨ frame.getMethod.head? = some (Char.ofNat 0) then
    ListenerCall.onHttpResponseReceived listener obj frame
  else
    ListenerCall.onHttpRequestReceived listener obj frame

/-- A call on the acceptance queue: `incomingConnection` with the socket object
it creates and whether the descriptor was adopted, or `nextPendingConnection`. -/
inductive QueueCall where
  | incomingConnection (newSocket : QSslSocket) (adopted : Bool)
  | nextPendingConnection
  deriving DecidableEq, Repr

/-- Runs a sequence of queue calls; the second component lists what each
`nextPendingConnection` returned, in call order. -/
def HttpServer.runQueueCalls : HttpServer → List QueueCall → HttpServer × List (Option QSslSocket)
  | s, [] => (s, [])
  | s, QueueCall.incomingConnection newSocket adopted :: rest =>
    HttpServer.runQueueCalls (HttpServer.incomingConnection s newSocket adopted) rest
  | s, QueueCall.nextPendingConnection :: rest =>
    let claimed := HttpServer.nextPendingConnection s
    let later := HttpServer.runQueueCalls claimed.2 rest
    (later.1, claimed.1 :: later.2)

/-- The sockets a sequence of queue calls enqueues, in call order. -/
def QueueCall.enqueued : List QueueCall → List QSslSocket
  | [] => []
  | QueueCall.incomingConnection newSocket adopted :: rest =>
    if adopted then newSocket :: QueueCall.enqueued rest else QueueCall.enqueued rest
  | QueueCall.nextPendingConnection :: rest => QueueCall.enqueued rest

/-! ## Sample inputs -/

/-- A completed request frame, method `GET`. -/
def getFrame : Ihttpframe :=
  { addr := 1, isFinishedProcessing := true, getMethod := ['G', 'E', 'T'] }

/-- A frame still being decoded. -/
def pendingFrame : Ihttpframe :=
  { addr := 2, isFinishedProcessing := false, getMethod := ['G', 'E'] }

/-- A completed frame without a method (a response). -/
def responseFrame : Ihttpframe :=
  { addr := 3, isFinishedProcessing := true, getMethod := [] }

/-- A completed frame whose method is the four characters NUL, `G`, `E`, `T`. -/
def nulMethodFrame : Ihttpframe :=
  { addr := 4, isFinishedProcessing := true, getMethod := [Char.ofNat 0, 'G', 'E', 'T'] }

/-- A connected, open socket with nothing left to write: `close()` emits
`disconnected()` and leaves it unconnected. -/
def connectedSocket : Transport :=
  { isOpen := true, state := SocketState.ConnectedState,
    stateAfterClose := SocketState.UnconnectedState, emitsDisconnected := true }

/-- A decoder that leaves the frame list as it is. -/
def idleDecoder : List Ihttpframe → List Nat → List Ihttpframe :=
  fun frameList _ => frameList

/-! ## Lemmas on the helpers -/

theorem HttpServer.containsHttpProcessedFrames_iff (fl : List Ihttpframe) :
    HttpServer.containsHttpProcessedFrames fl = true ↔
      ∃ f ∈ fl, f.isFinishedProcessing = true := by
  induction fl with
  | nil => simp [HttpServer.containsHttpProcessedFrames]
  | cons a t ih =>
    by_cases h : a.isFinishedProcessing = true
    · simp [HttpServer.containsHttpProcessedFrames, h]
    · simp [HttpServer.containsHttpProcessedFrames, h, ih]

theorem HttpServer.containsHttpProcessedFrames_false_iff (fl : List Ihttpframe) :
    HttpServer.containsHttpProcessedFrames fl = false ↔
      ∀ f ∈ fl, f.isFinishedProcessing = false := by
  induction fl with
  | nil => simp [HttpServer.containsHttpProcessedFrames]
  | cons a t ih =>
    by_cases h : a.isFinishedProcessing = true
    · simp [HttpServer.containsHttpProcessedFrames, h]
    · simp [HttpServer.containsHttpProcessedFrames, h, ih]

theorem vectorAt_pred_succ {α : Type} (v : List α) (k : Nat) :
    vectorAt v (((k + 1 : Nat) : Int) - 1) = v[k]? := by
  have h : (((k + 1 : Nat) : Int) - 1) = (k : Int) := by push_cast; ring
  rw [h]
  simp [vectorAt]

theorem vectorAt_neg_one {α : Type} (v : List α) : vectorAt v (((0 : Nat) : Int) - 1) = none := by
  simp [vectorAt]

/-- One turn of the loop on a completed frame. -/
theorem HttpServer.incomingDataLoop_complete (listeners : List IClientEventListener)
    (obj : ClientSocket) (fuel : Nat) (st : WalkState) (frame : Ihttpframe)
    (hc : HttpServer.containsHttpProcessedFrames st.frameList = true)
    (hat : vectorAt st.frameList st.count = some frame)
    (hf : frame.isFinishedProcessing = true) :
    HttpServer.incomingDataLoop listeners obj (fuel + 1) st =
      HttpServer.incomingDataLoop listeners obj fuel
        { frameList := st.frameList.dropLast
          count := st.count - 1
          calls := st.calls ++ HttpServer.notifyListeners listeners obj frame
          removed := st.removed ++ st.frameList.getLast?.toList } := by
  simp [HttpServer.incomingDataLoop, hc, hat, hf]

/-- One turn of the loop on an incomplete frame. -/
theorem HttpServer.incomingDataLoop_incomplete (listeners : List IClientEventListener)
    (obj : ClientSocket) (fuel : Nat) (st : WalkState) (frame : Ihttpframe)
    (hc : HttpServer.containsHttpProcessedFrames st.frameList = true)
    (hat : vectorAt st.frameList st.count = some frame)
    (hf : frame.isFinishedProcessing = false) :
    HttpServer.incomingDataLoop listeners obj (fuel + 1) st =
      HttpServer.incomingDataLoop listeners obj fuel { st with count := st.count - 1 } := by
  simp [HttpServer.incomingDataLoop, hc, hat, hf]

/-- The loop on a list whose completed frames are its last ones: the suffix is
delivered and popped from the back, the incomplete prefix stays. -/
theorem HttpServer.incomingDataLoop_suffix (listeners : List IClientEventListener)
    (obj : ClientSocket) (pre : List Ihttpframe)
    (hpre : ∀ f ∈ pre, f.isFinishedProcessing = false) (suf : List Ihttpframe) :
    (∀ f ∈ suf, f.isFinishedProcessing = true) →
    ∀ (fuel : Nat) (calls : List ListenerCall) (removed : List Ihttpframe),
      suf.length + 1 ≤ fuel →
      HttpServer.incomingDataLoop listeners obj fuel
          { frameList := pre ++ suf, count := ((pre ++ suf).length : Int) - 1,
            calls := calls, removed := removed } =
        Outcome.returned
          { frameList := pre, count := (pre.length : Int) - 1,
            calls := calls ++ suf.reverse.flatMap (HttpServer.notifyListeners listeners obj),
            removed := removed ++ suf.reverse } := by
  induction suf using List.reverseRecOn with
  | nil =>
    intro _ fuel calls removed hfuel
    obtain ⟨n, rfl⟩ : ∃ n, fuel = n + 1 := ⟨fuel - 1, by omega⟩
    have hc : HttpServer.containsHttpProcessedFrames pre = false :=
      (HttpServer.containsHttpProcessedFrames_false_iff pre).2 hpre
    simp [HttpServer.incomingDataLoop, hc]
  | append_singleton s x ih =>
    intro hs fuel calls removed hfuel
    obtain ⟨n, rfl⟩ : ∃ n, fuel = n + 1 := ⟨fuel - 1, by omega⟩
    have hx : x.isFinishedProcessing = true := hs x (by simp)
    have hc : HttpServer.containsHttpProcessedFrames (pre ++ (s ++ [x])) = true :=
      (HttpServer.containsHttpProcessedFrames_iff _).2 ⟨x, by simp, hx⟩
    have hlen : (pre ++ (s ++ [x])).length = (pre ++ s).length + 1 := by simp; omega
    have hat : vectorAt (pre ++ (s ++ [x])) (((pre ++ (s ++ [x])).length : Int) - 1) = some x := by
      rw [hlen, vectorAt_pred_succ, ← List.append_assoc,
        List.getElem?_append_right (le_refl _)]
      simp
    rw [HttpServer.incomingDataLoop_complete listeners obj n _ x hc hat hx]
    have hdrop : (pre ++ (s ++ [x])).dropLast = pre ++ s := by
      rw [← List.append_assoc, List.dropLast_concat]
    have hlast : (pre ++ (s ++ [x])).getLast?.toList = [x] := by
      rw [← List.append_assoc, List.getLast?_concat]; rfl
    have hcount : (((pre ++ (s ++ [x])).length : Int) - 1 - 1) = ((pre ++ s).length : Int) - 1 := by
      rw [hlen]; push_cast; ring
    simp only [hdrop, hlast, hcount]
    rw [ih (fun f hf => hs f (by simp [hf])) n _ _ (by simp at hfuel; omega)]
    simp [List.flatMap_append, List.flatMap_cons]

theorem List.take_succ_of_getElem? {α : Type} (l : List α) (k : Nat) (y : α)
    (hy : l[k]? = some y) : l.take (k + 1) = l.take k ++ [y] := by
  rw [List.take_succ, hy]; rfl

/-- The loop on a list that keeps a completed frame below the length it would
shrink to: every position from `count` down to 0 is visited and the next access,
`at(-1)`, is out of range. Here `count = k - 1`. -/
theorem HttpServer.incomingDataLoop_throws (listeners : List IClientEventListener)
    (obj : ClientSocket) :
    ∀ (k : Nat) (fl : List Ihttpframe) (calls : List ListenerCall) (removed : List Ihttpframe)
      (fuel : Nat),
      k ≤ fl.length →
      (∃ (i : Nat) (x : Ihttpframe),
          i + (fl.take k).countP (fun f => f.isFinishedProcessing) < fl.length ∧
          fl[i]? = some x ∧ x.isFinishedProcessing = true) →
      k + 1 ≤ fuel →
      HttpServer.incomingDataLoop listeners obj fuel
          { frameList := fl, count := ((k : Nat) : Int) - 1, calls := calls, removed := removed } =
        Outcome.outOfRange
          { frameList :=
              fl.take (fl.length - (fl.take k).countP (fun f => f.isFinishedProcessing))
            count := -1
            calls := calls ++
              (((fl.take k).filter (fun f => f.isFinishedProcessing)).reverse).flatMap
                (HttpServer.notifyListeners listeners obj)
            removed := removed ++
              (fl.drop
                (fl.length - (fl.take k).countP (fun f => f.isFinishedProcessing))).reverse } := by
  intro k
  induction k with
  | zero =>
    intro fl calls removed fuel _ hex hfuel
    obtain ⟨n, rfl⟩ : ∃ n, fuel = n + 1 := ⟨fuel - 1, by omega⟩
    obtain ⟨i, x, _, hix, hx⟩ := hex
    have hc : HttpServer.containsHttpProcessedFrames fl = true :=
      (HttpServer.containsHttpProcessedFrames_iff fl).2
        ⟨x, List.mem_iff_getElem?.2 ⟨i, hix⟩, hx⟩
    simp [HttpServer.incomingDataLoop, hc, vectorAt]
  | succ k ih =>
    intro fl calls removed fuel hk hex hfuel
    obtain ⟨n, rfl⟩ : ∃ n, fuel = n + 1 := ⟨fuel - 1, by omega⟩
    obtain ⟨i, x, hi, hix, hx⟩ := hex
    have hc : HttpServer.containsHttpProcessedFrames fl = true :=
      (HttpServer.containsHttpProcessedFrames_iff fl).2
        ⟨x, List.mem_iff_getElem?.2 ⟨i, hix⟩, hx⟩
    have hklt : k < fl.length := by omega
    have hy : fl[k]? = some fl[k] := List.getElem?_eq_getElem hklt
    have hat : vectorAt fl (((k + 1 : Nat) : Int) - 1) = some fl[k] := by
      rw [vectorAt_pred_succ, hy]
    have htake := List.take_succ_of_getElem? fl k fl[k] hy
    have hcount : (((k + 1 : Nat) : Int) - 1 - 1) = ((k : Nat) : Int) - 1 := by
      push_cast; ring
    by_cases hf : (fl[k]).isFinishedProcessing = true
    · -- completed: delivered, and the back of the list is popped
      rw [HttpServer.incomingDataLoop_complete listeners obj n _ fl[k] hc hat hf]
      simp only [hcount]
      have hne : fl ≠ [] := by intro h; rw [h] at hklt; simp at hklt
      obtain ⟨init, z, rfl⟩ : ∃ init z, fl = init ++ [z] := by
        rcases List.eq_nil_or_concat fl with h | ⟨L, b, h⟩
        · exact absurd h hne
        · exact ⟨L, b, by simpa using h⟩
      have hkinit : k ≤ init.length := by simp at hklt; omega
      have htk : (init ++ [z]).take k = init.take k := List.take_append_of_le_length hkinit
      rw [htake, htk] at hi
      simp only [List.countP_append, List.length_append, List.length_singleton] at hi
      have hone : List.countP (fun f : Ihttpframe => f.isFinishedProcessing) [(init ++ [z])[k]] = 1 := by
        simp [List.countP_cons, hf]
      rw [hone] at hi
      have hiinit : i < init.length := by omega
      have hix2 : init[i]? = some x := by
        rw [List.getElem?_append_left hiinit] at hix; exact hix
      have hdrop : (init ++ [z]).dropLast = init := List.dropLast_concat
      have hlast : (init ++ [z]).getLast?.toList = [z] := by
        rw [List.getLast?_concat]; rfl
      simp only [hdrop, hlast]
      rw [ih init _ _ n hkinit ⟨i, x, by omega, hix2, hx⟩ (by omega)]
      rw [htake, htk]
      simp only [List.countP_append, hone, List.filter_append, List.length_append,
        List.length_singleton]
      have hfilt : List.filter (fun f : Ihttpframe => f.isFinishedProcessing) [(init ++ [z])[k]]
          = [(init ++ [z])[k]] := by
        simp [List.filter_cons, hf]
      have hm : init.length + 1 - (List.countP (fun f : Ihttpframe => f.isFinishedProcessing)
          (List.take k init) + 1) = init.length - List.countP
            (fun f : Ihttpframe => f.isFinishedProcessing) (List.take k init) := by omega
      have hle : init.length - List.countP (fun f : Ihttpframe => f.isFinishedProcessing)
          (List.take k init) ≤ init.length := by omega
      rw [hfilt, hm, List.take_append_of_le_length hle, List.drop_append_of_le_length hle]
      simp [List.flatMap_append, List.flatMap_cons]
    · -- incomplete: skipped, nothing is popped
      have hf2 : (fl[k]).isFinishedProcessing = false := by simpa using hf
      rw [HttpServer.incomingDataLoop_incomplete listeners obj n _ fl[k] hc hat hf2]
      simp only [hcount]
      have hzero : List.countP (fun f : Ihttpframe => f.isFinishedProcessing) [fl[k]] = 0 := by
        simp [List.countP_cons, hf2]
      have hfilt : List.filter (fun f : Ihttpframe => f.isFinishedProcessing) [fl[k]] = [] := by
        simp [List.filter_cons, hf2]
      rw [htake] at hi
      simp only [List.countP_append, hzero] at hi
      rw [ih fl _ _ n (by omega) ⟨i, x, by omega, hix, hx⟩ (by omega)]
      rw [htake]
      simp only [List.countP_append, hzero, List.filter_append, hfilt, List.append_nil,
        Nat.add_zero]

/-! ## The two shapes of a frame list -/

/-- A list either has its completed frames at the back, or keeps a completed
frame below an incomplete one. -/
theorem suffix_or_completedBelowIncomplete (fl : List Ihttpframe) :
    (∃ pre suf, fl = pre ++ suf ∧ (∀ f ∈ pre, f.isFinishedProcessing = false) ∧
        (∀ f ∈ suf, f.isFinishedProcessing = true)) ∨
      CompletedBelowIncomplete fl := by
  induction fl with
  | nil => exact Or.inl ⟨[], [], rfl, by simp, by simp⟩
  | cons a t ih =>
    rcases ih with ⟨pre, suf, rfl, hpre, hsuf⟩ | ⟨i, j, x, y, hij, hx, hxf, hy, hyf⟩
    · by_cases ha : a.isFinishedProcessing = true
      · cases pre with
        | nil =>
          refine Or.inl ⟨[], a :: suf, rfl, by simp, ?_⟩
          intro f hf
          rcases List.mem_cons.1 hf with h | h
          · rw [h]; exact ha
          · exact hsuf f h
        | cons b pre' =>
          refine Or.inr ⟨0, 1, a, b, by omega, by simp, ha, by simp, hpre b (by simp)⟩
      · refine Or.inl ⟨a :: pre, suf, rfl, ?_, hsuf⟩
        intro f hf
        rcases List.mem_cons.1 hf with h | h
        · rw [h]; simpa using ha
        · exact hpre f h
    · exact Or.inr ⟨i + 1, j + 1, x, y, by omega, by simpa using hx, hxf, by simpa using hy, hyf⟩

/-- The two shapes exclude each other. -/
theorem not_completedBelowIncomplete_of_suffix (pre suf : List Ihttpframe)
    (hpre : ∀ f ∈ pre, f.isFinishedProcessing = false)
    (hsuf : ∀ f ∈ suf, f.isFinishedProcessing = true) :
    ¬ CompletedBelowIncomplete (pre ++ suf) := by
  rintro ⟨i, j, x, y, hij, hx, hxf, hy, hyf⟩
  have hi : pre.length ≤ i := by
    by_contra hlt
    rw [List.getElem?_append_left (by omega)] at hx
    have := hpre x (List.mem_iff_getElem?.2 ⟨i, hx⟩)
    rw [hxf] at this; exact absurd this (by simp)
  have hj : j < pre.length := by
    by_contra hge
    rw [List.getElem?_append_right (by omega)] at hy
    have := hsuf y (List.mem_iff_getElem?.2 ⟨_, hy⟩)
    rw [hyf] at this; exact absurd this (by simp)
  omega

/-- A list with a completed frame below an incomplete one has a completed frame
among its first `length - (number of completed frames)` positions. -/
theorem completed_in_kept_part (fl : List Ihttpframe) (h : CompletedBelowIncomplete fl) :
    ∃ (i : Nat) (x : Ihttpframe),
      i + (fl.take fl.length).countP (fun f => f.isFinishedProcessing) < fl.length ∧
      fl[i]? = some x ∧ x.isFinishedProcessing = true := by
  rw [List.take_length]
  by_contra hno
  push_neg at hno
  have hcle : fl.countP (fun f => f.isFinishedProcessing) ≤ fl.length := List.countP_le_length _
  have hpre : ∀ f ∈ fl.take (fl.length - fl.countP (fun f => f.isFinishedProcessing)),
      f.isFinishedProcessing = false := by
    intro f hf
    obtain ⟨i, hi⟩ := List.mem_iff_getElem?.1 hf
    rw [List.getElem?_take] at hi
    split at hi
    · have := hno i f (by omega) hi
      simpa using this
    · simp at hi
  have hc0 : (fl.take (fl.length - fl.countP (fun f => f.isFinishedProcessing))).countP
      (fun f => f.isFinishedProcessing) = 0 :=
    List.countP_eq_zero.2 (by intro a ha; simp [hpre a ha])
  have hsplit : fl.countP (fun f => f.isFinishedProcessing) =
      (fl.take (fl.length - fl.countP (fun f => f.isFinishedProcessing))).countP
        (fun f => f.isFinishedProcessing) +
      (fl.drop (fl.length - fl.countP (fun f => f.isFinishedProcessing))).countP
        (fun f => f.isFinishedProcessing) := by
    rw [← List.countP_append, List.take_append_drop]
  have hsuf : ∀ f ∈ fl.drop (fl.length - fl.countP (fun f => f.isFinishedProcessing)),
      f.isFinishedProcessing = true := by
    have hfull : (fl.drop (fl.length - fl.countP (fun f => f.isFinishedProcessing))).countP
        (fun f => f.isFinishedProcessing) =
        (fl.drop (fl.length - fl.countP (fun f => f.isFinishedProcessing))).length := by
      rw [List.length_drop]
      omega
    intro f hf
    exact List.countP_eq_length.1 hfull f hf
  refine not_completedBelowIncomplete_of_suffix _ _ hpre hsuf ?_
  rw [List.take_append_drop]
  exact h

/-! ## The dispatch block on the two shapes -/

theorem HttpServer.dispatchFrames_of_suffix (listeners : List IClientEventListener)
    (obj : ClientSocket) (pre suf : List Ihttpframe)
    (hpre : ∀ f ∈ pre, f.isFinishedProcessing = false)
    (hsuf : ∀ f ∈ suf, f.isFinishedProcessing = true) (extra : Nat) :
    HttpServer.dispatchFrames listeners obj (pre ++ suf) =
        Outcome.returned
          { frameList := pre, count := (pre.length : Int) - 1,
            calls := suf.reverse.flatMap (HttpServer.notifyListeners listeners obj),
            removed := suf.reverse } ∧
      HttpServer.incomingDataLoop listeners obj ((pre ++ suf).length + 1 + extra)
          (HttpServer.walkStart (pre ++ suf)) =
        HttpServer.dispatchFrames listeners obj (pre ++ suf) := by
  have key : ∀ fuel, suf.length + 1 ≤ fuel →
      HttpServer.incomingDataLoop listeners obj fuel (HttpServer.walkStart (pre ++ suf)) =
        Outcome.returned
          { frameList := pre, count := (pre.length : Int) - 1,
            calls := suf.reverse.flatMap (HttpServer.notifyListeners listeners obj),
            removed := suf.reverse } := by
    intro fuel hfuel
    have := HttpServer.incomingDataLoop_suffix listeners obj pre hpre suf hsuf fuel [] [] hfuel
    simpa [HttpServer.walkStart] using this
  have hlen : suf.length + 1 ≤ (pre ++ suf).length + 1 := by simp
  have hd : HttpServer.dispatchFrames listeners obj (pre ++ suf) =
        Outcome.returned
          { frameList := pre, count := (pre.length : Int) - 1,
            calls := suf.reverse.flatMap (HttpServer.notifyListeners listeners obj),
            removed := suf.reverse } := by
    unfold HttpServer.dispatchFrames
    split
    · exact key _ hlen
    · rename_i hz
      have hnil : pre ++ suf = [] := List.eq_nil_of_length_eq_zero (by omega)
      obtain ⟨h1, h2⟩ := List.append_eq_nil.1 hnil
      subst h1; subst h2
      simp [HttpServer.walkStart]
  exact ⟨hd, by rw [hd]; exact key _ (by omega)⟩

theorem HttpServer.dispatchFrames_of_completedBelowIncomplete
    (listeners : List IClientEventListener) (obj : ClientSocket) (fl : List Ihttpframe)
    (h : CompletedBelowIncomplete fl) (extra : Nat) :
    HttpServer.dispatchFrames listeners obj fl =
        Outcome.outOfRange
          { frameList := fl.take (fl.length - fl.countP (fun f => f.isFinishedProcessing))
            count := -1
            calls := ((fl.filter (fun f => f.isFinishedProcessing)).reverse).flatMap
              (HttpServer.notifyListeners listeners obj)
            removed :=
              (fl.drop (fl.length - fl.countP (fun f => f.isFinishedProcessing))).reverse } ∧
      HttpServer.incomingDataLoop listeners obj (fl.length + 1 + extra)
          (HttpServer.walkStart fl) =
        HttpServer.dispatchFrames listeners obj fl := by
  have key : ∀ fuel, fl.length + 1 ≤ fuel →
      HttpServer.incomingDataLoop listeners obj fuel (HttpServer.walkStart fl) =
        Outcome.outOfRange
          { frameList := fl.take (fl.length - fl.countP (fun f => f.isFinishedProcessing))
            count := -1
            calls := ((fl.filter (fun f => f.isFinishedProcessing)).reverse).flatMap
              (HttpServer.notifyListeners listeners obj)
            removed :=
              (fl.drop (fl.length - fl.countP (fun f => f.isFinishedProcessing))).reverse } := by
    intro fuel hfuel
    have := HttpServer.incomingDataLoop_throws listeners obj fl.length fl [] [] fuel
      (le_refl _) (completed_in_kept_part fl h) hfuel
    simpa [HttpServer.walkStart] using this
  have hpos : fl.length > 0 := by
    obtain ⟨i, j, x, y, hij, hx, _, hy, _⟩ := h
    have := (List.getElem?_eq_some_iff.1 hy).1
    omega
  have hd : HttpServer.dispatchFrames listeners obj fl =
      HttpServer.incomingDataLoop listeners obj (fl.length + 1) (HttpServer.walkStart fl) := by
    unfold HttpServer.dispatchFrames
    rw [if_pos hpos]
  refine ⟨by rw [hd]; exact key _ (le_refl _), ?_⟩
  rw [hd, key _ (le_refl _), key _ (by omega)]

/-! ## Lemmas on `incomingData` -/

theorem Char.toNat_eq_zero_iff (c : Char) : c.toNat = 0 ↔ c = Char.ofNat 0 := by
  constructor
  · intro h
    have := Char.ofNat_toNat c
    rw [h] at this
    exact this.symm
  · intro h
    rw [h]
    rfl

/-- When `strcmp` finds a method equal to `""`. -/
theorem strcmp_empty_iff (m : List Char) :
    strcmp m [] = 0 ↔ (m = [] ∨ m.head? = some (Char.ofNat 0)) := by
  cases m with
  | nil => simp [strcmp, cstr, strcmpAux]
  | cons a t =>
    by_cases ha : a.toNat = 0
    · have hz : a = Char.ofNat 0 := (Char.toNat_eq_zero_iff a).1 ha
      have hb : (a.toNat != 0) = false := by simp [ha]
      simp [strcmp, cstr, List.takeWhile_cons, hb, strcmpAux, hz]
    · have hne : a ≠ Char.ofNat 0 := fun h => ha ((Char.toNat_eq_zero_iff a).2 h)
      have hb : (a.toNat != 0) = true := by simp [ha]
      simp [strcmp, cstr, List.takeWhile_cons, hb, strcmpAux, ha, hne]

/-- An expected call names its listener and its frame. -/
theorem HttpServer.callbackFor_eq_iff (obj : ClientSocket) (f frame : Ihttpframe)
    (a l : IClientEventListener) :
    HttpServer.callbackFor obj f a = HttpServer.callbackFor obj frame l ↔
      f = frame ∧ a = l := by
  constructor
  · intro h
    unfold HttpServer.callbackFor at h
    split at h <;> split at h <;> simp at h
    · exact ⟨h.2, h.1⟩
    · exact ⟨h.2, h.1⟩
  · rintro ⟨rfl, rfl⟩
    rfl

/-- How often an expected call occurs when every frame of `delivered` is handed to
every entry of `listeners`. -/
theorem HttpServer.count_callbackFor (obj : ClientSocket)
    (listeners : List IClientEventListener) (frame : Ihttpframe) (l : IClientEventListener) :
    ∀ delivered : List Ihttpframe,
      (delivered.flatMap (fun f => listeners.map (HttpServer.callbackFor obj f))).count
          (HttpServer.callbackFor obj frame l) =
        delivered.count frame * listeners.count l := by
  intro delivered
  induction delivered with
  | nil => simp
  | cons f rest ih =>
    rw [List.flatMap_cons, List.count_append, ih]
    by_cases hf : f = frame
    · subst hf
      have hinj : Function.Injective (HttpServer.callbackFor obj f) := by
        intro a b hab
        exact ((HttpServer.callbackFor_eq_iff obj f f a b).1 hab).2
      rw [List.count_map_of_injective _ _ hinj, List.count_cons_self]
      ring
    · have hzero : (listeners.map (HttpServer.callbackFor obj f)).count
          (HttpServer.callbackFor obj frame l) = 0 := by
        apply List.count_eq_zero.2
        intro hmem
        obtain ⟨a, _, ha⟩ := List.mem_map.1 hmem
        exact hf ((HttpServer.callbackFor_eq_iff obj f frame a l).1 ha).1
      rw [hzero, List.count_cons_of_ne (fun h => hf h.symm)]
      ring

/-- Whatever the frame list, the dispatch block ends by a return or by the
exception, and has then called the listeners for every completed frame, last
position first. -/
theorem HttpServer.dispatchFrames_calls (listeners : List IClientEventListener)
    (obj : ClientSocket) (fl : List Ihttpframe) :
    ∃ st, (HttpServer.dispatchFrames listeners obj fl = Outcome.returned st ∨
        HttpServer.dispatchFrames listeners obj fl = Outcome.outOfRange st) ∧
      st.calls = ((fl.filter (fun f => f.isFinishedProcessing)).reverse).flatMap
        (HttpServer.notifyListeners listeners obj) := by
  rcases suffix_or_completedBelowIncomplete fl with ⟨pre, suf, rfl, hpre, hsuf⟩ | h
  · refine ⟨_, Or.inl (HttpServer.dispatchFrames_of_suffix listeners obj pre suf hpre hsuf 0).1, ?_⟩
    have h1 : pre.filter (fun f => f.isFinishedProcessing) = [] :=
      List.filter_eq_nil_iff.2 (by intro a ha; simp [hpre a ha])
    have h2 : suf.filter (fun f => f.isFinishedProcessing) = suf :=
      List.filter_eq_self.2 (by intro a ha; simp [hsuf a ha])
    simp [List.filter_append, h1, h2]
  · exact ⟨_, Or.inr (HttpServer.dispatchFrames_of_completedBelowIncomplete listeners obj fl h 0).1,
      rfl⟩

theorem HttpServer.closeClientSocket_consumer (s : HttpServer) (t : Transport)
    (socket : QSslSocket) :
    (HttpServer.closeClientSocket s t socket).1.consumer = s.consumer ∧
    (HttpServer.closeClientSocket s t socket).1.clientEventListenerList =
      s.clientEventListenerList := by
  unfold HttpServer.closeClientSocket HttpServer.slot_disconnected
  cases t.isOpen <;> cases t.emitsDisconnected <;> simp <;> split <;> simp

/-- After `m[k] = v` the registry holds `v` for `k`. -/
theorem SocketMap.find_assign (m : SocketMap) (k : QSslSocket) (v : ClientSocket) :
    SocketMap.find (SocketMap.assign m k v) k = some v := by
  unfold SocketMap.find SocketMap.assign SocketMap.erase
  induction m with
  | nil => simp [List.lookup]
  | cons e rest ih =>
    obtain ⟨a, b⟩ := e
    by_cases he : a = k
    · rw [List.filter_cons_of_neg (by simp [he])]
      exact ih
    · have hk : (k == a) = false := by
        simp only [beq_eq_false_iff_ne]; exact fun h => he h.symm
      rw [List.filter_cons_of_pos (by simp [he])]
      simp only [List.cons_append, List.lookup_cons, hk]
      exact ih

/-- After `erase(k)` the registry holds nothing for `k`. -/
theorem SocketMap.find_erase (m : SocketMap) (k : QSslSocket) :
    SocketMap.find (SocketMap.erase m k) k = none := by
  unfold SocketMap.find SocketMap.erase
  induction m with
  | nil => simp [List.lookup]
  | cons e rest ih =>
    obtain ⟨a, b⟩ := e
    by_cases he : a = k
    · rw [List.filter_cons_of_neg (by simp [he])]
      exact ih
    · have hk : (k == a) = false := by
        simp only [beq_eq_false_iff_ne]; exact fun h => he h.symm
      rw [List.filter_cons_of_pos (by simp [he])]
      simp only [List.cons_append, List.lookup_cons, hk]
      exact ih

/-- The wrapper handed to the listeners wraps the socket that raised the event. -/
theorem ClientSocket.setSocketClient_eq (obj : ClientSocket) (socket : QSslSocket) :
    ClientSocket.setSocketClient obj socket = { socketClient := some socket } := rfl

/-- A run of `incomingData` whose dispatch block returns. -/
theorem HttpServer.incomingData_of_returned
    (httpdecode : List Ihttpframe → List Nat → List Ihttpframe) (t : Transport)
    (clientSocket : QSslSocket) (data : List Nat) (s : HttpServer) (st : WalkState)
    (h : HttpServer.dispatchFrames s.clientEventListenerList { socketClient := some clientSocket }
      (httpdecode s.consumer data) = Outcome.returned st) :
    ∃ r, HttpServer.incomingData httpdecode t clientSocket data s = Outcome.returned r ∧
      r.calls = st.calls ∧ r.removed = st.removed ∧ r.server.consumer = st.frameList ∧
      r.socketCalls = (HttpServer.closeClientSocket s t clientSocket).2 ∧
      SocketMap.find r.server.socketClientList clientSocket =
        some { socketClient := some clientSocket } := by
  unfold HttpServer.incomingData
  simp only [ClientSocket.setSocketClient_eq, h]
  refine ⟨_, rfl, rfl, rfl, ?_, ?_, ?_⟩
  · simp [(HttpServer.closeClientSocket_consumer _ t clientSocket).1]
  · unfold HttpServer.closeClientSocket HttpServer.slot_disconnected
    cases t.isOpen <;> cases t.emitsDisconnected <;> simp <;> split <;> simp
  · exact SocketMap.find_assign _ clientSocket _

/-- A run of `incomingData` whose dispatch block throws. -/
theorem HttpServer.incomingData_of_outOfRange
    (httpdecode : List Ihttpframe → List Nat → List Ihttpframe) (t : Transport)
    (clientSocket : QSslSocket) (data : List Nat) (s : HttpServer) (st : WalkState)
    (h : HttpServer.dispatchFrames s.clientEventListenerList { socketClient := some clientSocket }
      (httpdecode s.consumer data) = Outcome.outOfRange st) :
    ∃ r, HttpServer.incomingData httpdecode t clientSocket data s = Outcome.outOfRange r ∧
      r.calls = st.calls ∧ r.removed = st.removed ∧ r.server.consumer = st.frameList ∧
      r.socketCalls = [] := by
  unfold HttpServer.incomingData
  simp only [ClientSocket.setSocketClient_eq, h]
  exact ⟨_, rfl, rfl, rfl, rfl, rfl⟩

theorem HttpServer.mem_notifyListeners_response (listeners : List IClientEventListener)
    (obj o : ClientSocket) (frame f : Ihttpframe) (l : IClientEventListener) :
    ListenerCall.onHttpResponseReceived l o f ∈ HttpServer.notifyListeners listeners obj frame ↔
      l ∈ listeners ∧ o = obj ∧ f = frame ∧ strcmp frame.getMethod [] = 0 := by
  unfold HttpServer.notifyListeners
  split
  · rename_i h
    simp only [List.mem_map, ListenerCall.onHttpResponseReceived.injEq]
    constructor
    · rintro ⟨a, ha, rfl, rfl, rfl⟩
      exact ⟨ha, rfl, rfl, h⟩
    · rintro ⟨hl, rfl, rfl, _⟩
      exact ⟨l, hl, rfl, rfl, rfl⟩
  · rename_i h
    simp [h]

theorem HttpServer.mem_notifyListeners_request (listeners : List IClientEventListener)
    (obj o : ClientSocket) (frame f : Ihttpframe) (l : IClientEventListener) :
    ListenerCall.onHttpRequestReceived l o f ∈ HttpServer.notifyListeners listeners obj frame ↔
      l ∈ listeners ∧ o = obj ∧ f = frame ∧ strcmp frame.getMethod [] ≠ 0 := by
  unfold HttpServer.notifyListeners
  split
  · rename_i h
    simp [h]
  · rename_i h
    simp only [List.mem_map, ListenerCall.onHttpRequestReceived.injEq]
    constructor
    · rintro ⟨a, ha, rfl, rfl, rfl⟩
      exact ⟨ha, rfl, rfl, h⟩
    · rintro ⟨hl, rfl, rfl, _⟩
      exact ⟨l, hl, rfl, rfl, rfl⟩

/-- Whatever the input, `incomingData` ends by a return or by the exception, and
has then called the listeners for every completed frame of the decoded list, last
position first. -/
theorem HttpServer.incomingData_calls
    (httpdecode : List Ihttpframe → List Nat → List Ihttpframe) (t : Transport)
    (clientSocket : QSslSocket) (data : List Nat) (s : HttpServer) :
    ∃ r, (HttpServer.incomingData httpdecode t clientSocket data s = Outcome.returned r ∨
        HttpServer.incomingData httpdecode t clientSocket data s = Outcome.outOfRange r) ∧
      r.calls =
        (((httpdecode s.consumer data).filter (fun f => f.isFinishedProcessing)).reverse).flatMap
          (HttpServer.notifyListeners s.clientEventListenerList
            { socketClient := some clientSocket }) := by
  obtain ⟨st, hst, hcalls⟩ := HttpServer.dispatchFrames_calls s.clientEventListenerList
    { socketClient := some clientSocket } (httpdecode s.consumer data)
  rcases hst with h | h
  · obtain ⟨r, hr, hc, _⟩ := HttpServer.incomingData_of_returned httpdecode t clientSocket data s st h
    exact ⟨r, Or.inl hr, by rw [hc, hcalls]⟩
  · obtain ⟨r, hr, hc, _⟩ :=
      HttpServer.incomingData_of_outOfRange httpdecode t clientSocket data s st h
    exact ⟨r, Or.inr hr, by rw [hc, hcalls]⟩

theorem HttpServer.foldl_addClientEventListener (registered : List IClientEventListener) :
    ∀ s : HttpServer,
      (registered.foldl HttpServer.addClientEventListener s).clientEventListenerList =
          s.clientEventListenerList ++ registered ∧
        (registered.foldl HttpServer.addClientEventListener s).consumer = s.consumer := by
  induction registered with
  | nil => intro s; simp
  | cons a rest ih =>
    intro s
    rw [List.foldl_cons]
    obtain ⟨h1, h2⟩ := ih (HttpServer.addClientEventListener s a)
    rw [h1, h2]
    simp [HttpServer.addClientEventListener]

theorem HttpServer.runQueueCalls_fifo (calls : List QueueCall) :
    ∀ s : HttpServer,
      (HttpServer.runQueueCalls s calls).2.filterMap id ++
          (HttpServer.runQueueCalls s calls).1.queue =
        s.queue ++ QueueCall.enqueued calls := by
  induction calls with
  | nil => intro s; simp [HttpServer.runQueueCalls, QueueCall.enqueued]
  | cons c rest ih =>
    intro s
    cases c with
    | incomingConnection newSocket adopted =>
      cases adopted with
      | false =>
        simpa [HttpServer.runQueueCalls, QueueCall.enqueued, HttpServer.incomingConnection]
          using ih s
      | true =>
        have := ih (HttpServer.incomingConnection s newSocket true)
        simpa [HttpServer.runQueueCalls, QueueCall.enqueued, HttpServer.incomingConnection]
          using this
    | nextPendingConnection =>
      cases hq : s.queue with
      | nil =>
        have hn : HttpServer.nextPendingConnection s = (none, s) := by
          simp [HttpServer.nextPendingConnection, hq]
        have := ih s
        simp only [HttpServer.runQueueCalls, QueueCall.enqueued, hn]
        rw [hq] at this
        simpa using this
      | cons head tail =>
        have hn : HttpServer.nextPendingConnection s = (some head, { s with queue := tail }) := by
          simp [HttpServer.nextPendingConnection, hq]
        have := ih { s with queue := tail }
        simp only [HttpServer.runQueueCalls, QueueCall.enqueued, hn]
        simpa using this

/-! ## The claims -/

/-- C1 (fails on the code). Exactly-once delivery needs a delivered frame to be
gone from the frame list after the pass. With the decoded list
`[getFrame, pendingFrame]` the pass hands `getFrame` to the listener, pops
`pendingFrame` from the back, and is ended by `at(-1)` throwing; `getFrame` is
still the content of the frame list. The next pass on that state, in which the
decoder adds nothing, hands `getFrame` to the same listener a second time. -/
theorem HttpServer.incomingData_delivers_frame_again :
    HttpServer.incomingData (fun _ _ => [getFrame, pendingFrame]) connectedSocket 7 []
        { clientEventListenerList := [1] } =
      Outcome.outOfRange
        { server :=
            { socketClientList := [(7, {})], clientEventListenerList := [1],
              consumer := [getFrame] }
          calls := [ListenerCall.onHttpRequestReceived 1 { socketClient := some 7 } getFrame]
          removed := [pendingFrame]
          socketCalls := [] } ∧
    HttpServer.incomingData idleDecoder connectedSocket 7 []
        { socketClientList := [(7, {})], clientEventListenerList := [1],
          consumer := [getFrame] } =
      Outcome.returned
        { server :=
            { socketClientList := [(7, { socketClient := some 7 })],
              clientEventListenerList := [1], consumer := [] }
          calls := [ListenerCall.onHttpRequestReceived 1 { socketClient := some 7 } getFrame]
          removed := [getFrame]
          socketCalls :=
            [SocketCall.closeClientSocket 7, SocketCall.close 7, SocketCall.deleteLater 7,
             SocketCall.delete 7] } := by
  decide

/-- C2 (as stated, fails): after a readable-data event that leaves only an
incomplete frame in the list, `incomingData` calls no listener and keeps the
list, yet it does invoke `closeClientSocket`, which closes the open socket. -/
theorem HttpServer.incomingData_closes_without_completed_frame :
    HttpServer.containsHttpProcessedFrames [pendingFrame] = false ∧
    HttpServer.incomingData (fun _ _ => [pendingFrame]) connectedSocket 7 []
        { clientEventListenerList := [1] } =
      Outcome.returned
        { server :=
            { socketClientList := [(7, { socketClient := some 7 })],
              clientEventListenerList := [1], consumer := [pendingFrame] }
          calls := []
          removed := []
          socketCalls :=
            [SocketCall.closeClientSocket 7, SocketCall.close 7, SocketCall.deleteLater 7,
             SocketCall.delete 7] } := by
  decide

/-- C2 (amended). After every readable-data event that leaves no completed frame
in the list (the empty list included), `incomingData` returns having called no
listener and popped no frame, with the frame list as the decoder left it; it
then invokes `closeClientSocket` exactly once, first of all socket calls, and
`close()` is requested exactly when the socket reports itself open. -/
theorem HttpServer.incomingData_without_completed_frame
    (httpdecode : List Ihttpframe → List Nat → List Ihttpframe) (t : Transport)
    (clientSocket : QSslSocket) (data : List Nat) (s : HttpServer)
    (h : HttpServer.containsHttpProcessedFrames (httpdecode s.consumer data) = false) :
    ∃ r, HttpServer.incomingData httpdecode t clientSocket data s = Outcome.returned r ∧
      r.calls = [] ∧ r.removed = [] ∧ r.server.consumer = httpdecode s.consumer data ∧
      r.socketCalls.head? = some (SocketCall.closeClientSocket clientSocket) ∧
      r.socketCalls.count (SocketCall.closeClientSocket clientSocket) = 1 ∧
      (SocketCall.close clientSocket ∈ r.socketCalls ↔ t.isOpen = true) := by
  have hpre := (HttpServer.containsHttpProcessedFrames_false_iff _).1 h
  have hd := (HttpServer.dispatchFrames_of_suffix s.clientEventListenerList
    { socketClient := some clientSocket } (httpdecode s.consumer data) [] hpre (by simp) 0).1
  rw [List.append_nil] at hd
  obtain ⟨r, hr, hc, hrem, hcons, hsock, _⟩ :=
    HttpServer.incomingData_of_returned httpdecode t clientSocket data s _ hd
  refine ⟨r, hr, by simpa using hc, by simpa using hrem, by simpa using hcons, ?_, ?_, ?_⟩ <;>
    rw [hsock] <;>
    unfold HttpServer.closeClientSocket HttpServer.slot_disconnected <;>
    cases t.isOpen <;> cases t.emitsDisconnected <;> simp <;> split <;> simp

/-- C2 (amended), at the pass of the counterexample. -/
theorem HttpServer.incomingData_without_completed_frame_witness :
    ∃ r, HttpServer.incomingData (fun _ _ => [pendingFrame]) connectedSocket 7 []
        { clientEventListenerList := [1] } = Outcome.returned r ∧
      r.calls = [] ∧ r.removed = [] ∧ r.server.consumer = [pendingFrame] ∧
      r.socketCalls.head? = some (SocketCall.closeClientSocket 7) ∧
      r.socketCalls.count (SocketCall.closeClientSocket 7) = 1 ∧
      (SocketCall.close 7 ∈ r.socketCalls ↔ connectedSocket.isOpen = true) :=
  HttpServer.incomingData_without_completed_frame (fun _ _ => [pendingFrame]) connectedSocket 7 []
    { clientEventListenerList := [1] } (by decide)

/-- C3 (fails on the code). A readable-data event on socket 7, registered and
connected: `close()` emits `disconnected()`, so `slot_disconnected` erases the
entry of 7 (its `deleteLater` call is in the trace, and the registry is empty when
`closeClientSocket` returns), the socket then reports unconnected and is deleted,
and the last statement of `incomingData` stores an entry for 7 again. After the
pass the registry holds an entry for a socket that no longer exists. -/
theorem HttpServer.incomingData_registry_entry_outlives_socket :
    HttpServer.incomingData idleDecoder connectedSocket 7 []
        { socketClientList := [(7, { socketClient := some 7 })] } =
      Outcome.returned
        { server := { socketClientList := [(7, { socketClient := some 7 })] }
          calls := []
          removed := []
          socketCalls :=
            [SocketCall.closeClientSocket 7, SocketCall.close 7, SocketCall.deleteLater 7,
             SocketCall.delete 7] } ∧
    (HttpServer.closeClientSocket { socketClientList := [(7, { socketClient := some 7 })] }
        connectedSocket 7).1.socketClientList = [] ∧
    SocketMap.find [(7, { socketClient := some 7 })] 7 = some { socketClient := some 7 } := by
  decide

/-- C4 (as stated, fails): `nulMethodFrame` carries a non-empty method, the four
characters NUL, `G`, `E`, `T`, and is routed to `onHttpResponseReceived`. -/
theorem HttpServer.incomingData_nul_method_routed_as_response :
    nulMethodFrame.getMethod ≠ [] ∧
    HttpServer.incomingData (fun _ _ => [nulMethodFrame]) connectedSocket 7 []
        { clientEventListenerList := [1] } =
      Outcome.returned
        { server :=
            { socketClientList := [(7, { socketClient := some 7 })],
              clientEventListenerList := [1], consumer := [] }
          calls :=
            [ListenerCall.onHttpResponseReceived 1 { socketClient := some 7 } nulMethodFrame]
          removed := [nulMethodFrame]
          socketCalls :=
            [SocketCall.closeClientSocket 7, SocketCall.close 7, SocketCall.deleteLater 7,
             SocketCall.delete 7] } := by
  decide

/-- C4 (amended). In every pass of `incomingData`, a frame is handed to
`onHttpResponseReceived` of a listener exactly when the listener is registered,
the frame is a completed frame of the decoded list, and its method, read as a C
string, is empty: the method is empty or begins with NUL. It is handed to
`onHttpRequestReceived` exactly when the listener is registered, the frame is a
completed frame of the list, and its method is non-empty and does not begin with
NUL. No frame is handed to both. -/
theorem HttpServer.incomingData_routes_by_c_string
    (httpdecode : List Ihttpframe → List Nat → List Ihttpframe) (t : Transport)
    (clientSocket : QSslSocket) (data : List Nat) (s : HttpServer) :
    ∃ r, (HttpServer.incomingData httpdecode t clientSocket data s = Outcome.returned r ∨
        HttpServer.incomingData httpdecode t clientSocket data s = Outcome.outOfRange r) ∧
      ∀ (l : IClientEventListener) (o : ClientSocket) (f : Ihttpframe),
        (ListenerCall.onHttpResponseReceived l o f ∈ r.calls ↔
          l ∈ s.clientEventListenerList ∧ o = { socketClient := some clientSocket } ∧
            f ∈ httpdecode s.consumer data ∧ f.isFinishedProcessing = true ∧
            (f.getMethod = [] ∨ f.getMethod.head? = some (Char.ofNat 0))) ∧
        (ListenerCall.onHttpRequestReceived l o f ∈ r.calls ↔
          l ∈ s.clientEventListenerList ∧ o = { socketClient := some clientSocket } ∧
            f ∈ httpdecode s.consumer data ∧ f.isFinishedProcessing = true ∧
            ¬ (f.getMethod = [] ∨ f.getMethod.head? = some (Char.ofNat 0))) := by
  obtain ⟨r, hr, hcalls⟩ := HttpServer.incomingData_calls httpdecode t clientSocket data s
  refine ⟨r, hr, ?_⟩
  intro l o f
  rw [hcalls]
  simp only [List.mem_flatMap, List.mem_reverse, List.mem_filter,
    HttpServer.mem_notifyListeners_response, HttpServer.mem_notifyListeners_request,
    strcmp_empty_iff]
  constructor
  · constructor
    · rintro ⟨a, ⟨ha, hfin⟩, hl, ho, rfl, hm⟩
      exact ⟨hl, ho, ha, hfin, hm⟩
    · rintro ⟨hl, ho, ha, hfin, hm⟩
      exact ⟨f, ⟨ha, hfin⟩, hl, ho, rfl, hm⟩
  · constructor
    · rintro ⟨a, ⟨ha, hfin⟩, hl, ho, rfl, hm⟩
      exact ⟨hl, ho, ha, hfin, fun h => hm ((strcmp_empty_iff _).2 h)⟩
    · rintro ⟨hl, ho, ha, hfin, hm⟩
      exact ⟨f, ⟨ha, hfin⟩, hl, ho, rfl, fun h => hm ((strcmp_empty_iff _).1 h)⟩

/-- C5 (as stated, fails): the listener list built by calling
`addClientEventListener` twice with listener 1 is `[1, 1]`, and the pass that
delivers `getFrame` invokes the callback on listener 1 twice for that frame, not
exactly once. -/
theorem HttpServer.incomingData_listener_registered_twice_called_twice :
    (HttpServer.addClientEventListener (HttpServer.addClientEventListener {} 1)
        1).clientEventListenerList = [1, 1] ∧
    HttpServer.incomingData (fun _ _ => [getFrame]) connectedSocket 7 []
        (HttpServer.addClientEventListener (HttpServer.addClientEventListener {} 1) 1) =
      Outcome.returned
        { server :=
            { socketClientList := [(7, { socketClient := some 7 })],
              clientEventListenerList := [1, 1], consumer := [] }
          calls :=
            [ListenerCall.onHttpRequestReceived 1 { socketClient := some 7 } getFrame,
             ListenerCall.onHttpRequestReceived 1 { socketClient := some 7 } getFrame]
          removed := [getFrame]
          socketCalls :=
            [SocketCall.closeClientSocket 7, SocketCall.close 7, SocketCall.deleteLater 7,
             SocketCall.delete 7] } ∧
    List.count (ListenerCall.onHttpRequestReceived 1 { socketClient := some 7 } getFrame)
        [ListenerCall.onHttpRequestReceived 1 { socketClient := some 7 } getFrame,
         ListenerCall.onHttpRequestReceived 1 { socketClient := some 7 } getFrame] = 2 := by
  decide

/-- C5 (amended). Let the listener list be built by successive
`addClientEventListener` calls. In every pass of `incomingData` the listener
calls made are, for each delivered frame in turn (the completed frames of the
decoded list, last position first), one call per registration, in registration
order, each the call expected for that frame. Hence a listener registered before
another is called before it, and the number of calls a pass makes on a listener
for a frame is the number of times the frame is delivered times the number of
times the listener was registered: exactly once for a frame delivered once and a
listener registered once. -/
theorem HttpServer.incomingData_listeners_in_registration_order
    (httpdecode : List Ihttpframe → List Nat → List Ihttpframe) (t : Transport)
    (clientSocket : QSslSocket) (data : List Nat) (s : HttpServer)
    (registered : List IClientEventListener) :
    ∃ r,
      (HttpServer.incomingData httpdecode t clientSocket data
            (registered.foldl HttpServer.addClientEventListener s) = Outcome.returned r ∨
        HttpServer.incomingData httpdecode t clientSocket data
            (registered.foldl HttpServer.addClientEventListener s) = Outcome.outOfRange r) ∧
      r.calls =
        (((httpdecode s.consumer data).filter (fun f => f.isFinishedProcessing)).reverse).flatMap
          (fun frame =>
            (s.clientEventListenerList ++ registered).map
              (HttpServer.callbackFor { socketClient := some clientSocket } frame)) ∧
      ∀ (frame : Ihttpframe) (l : IClientEventListener),
        r.calls.count (HttpServer.callbackFor { socketClient := some clientSocket } frame l) =
          (((httpdecode s.consumer data).filter
              (fun f => f.isFinishedProcessing)).reverse).count frame *
            (s.clientEventListenerList ++ registered).count l := by
  obtain ⟨r, hr, hcalls⟩ := HttpServer.incomingData_calls httpdecode t clientSocket data
    (registered.foldl HttpServer.addClientEventListener s)
  obtain ⟨h1, h2⟩ := HttpServer.foldl_addClientEventListener registered s
  have hseq : r.calls =
      (((httpdecode s.consumer data).filter (fun f => f.isFinishedProcessing)).reverse).flatMap
        (fun frame =>
          (s.clientEventListenerList ++ registered).map
            (HttpServer.callbackFor { socketClient := some clientSocket } frame)) := by
    rw [hcalls, h1, h2]
    congr 1
    funext frame
    unfold HttpServer.notifyListeners HttpServer.callbackFor
    by_cases h : strcmp frame.getMethod [] = 0
    · have hm := (strcmp_empty_iff _).1 h
      simp only [if_pos h, if_pos hm]
    · have hm : ¬ (frame.getMethod = [] ∨ frame.getMethod.head? = some (Char.ofNat 0)) :=
        fun hm => h ((strcmp_empty_iff _).2 hm)
      simp only [if_neg h, if_neg hm]
  refine ⟨r, hr, hseq, ?_⟩
  intro frame l
  rw [hseq]
  exact HttpServer.count_callbackFor _ _ frame l _

/-- C6. `startServerEncryption` makes exactly one call, `close()`, when the
private key is null, the local certificate is null or the CA list is empty: no
key, certificate or CA list is attached and the handshake is not started. When
all three are present it attaches the key, the certificate and the CA list, sets
the protocol and starts the handshake, and does not close the socket. -/
theorem HttpServer.startServerEncryption_guard (s : HttpServer) (clientSocket : QSslSocket) :
    ((s.keyCertificate.isNull = true ∨ s.localCertificate.isNull = true ∨
          s.caCertificate = []) →
        HttpServer.startServerEncryption s clientSocket = [SocketCall.close clientSocket]) ∧
    (¬ (s.keyCertificate.isNull = true ∨ s.localCertificate.isNull = true ∨
          s.caCertificate = []) →
        HttpServer.startServerEncryption s clientSocket =
            [SocketCall.setPrivateKey clientSocket s.keyCertificate,
             SocketCall.setLocalCertificate clientSocket s.localCertificate,
             SocketCall.addCaCertificates clientSocket s.caCertificate,
             SocketCall.setProtocolAnyProtocol clientSocket,
             SocketCall.startServerEncryption clientSocket] ∧
          SocketCall.close clientSocket ∉ HttpServer.startServerEncryption s clientSocket) := by
  unfold HttpServer.startServerEncryption
  constructor
  · intro h
    rw [if_pos]
    simpa [List.isEmpty_iff, or_assoc] using h
  · intro h
    rw [if_neg]
    · simp
    · simpa [List.isEmpty_iff, or_assoc, and_assoc] using h

/-- C7. For every sequence of `incomingConnection` and `nextPendingConnection`
calls, the sockets handed out, in the order they were handed out, followed by
the sockets still queued, are the sockets queued at the start followed by the
adopted sockets in arrival order: first in, first out, each handed out once and
gone from the queue. On an empty queue `nextPendingConnection` returns null and
changes nothing; otherwise it returns the head and removes it. -/
theorem HttpServer.pending_connections_fifo (s : HttpServer) (calls : List QueueCall) :
    ((HttpServer.runQueueCalls s calls).2.filterMap id ++
          (HttpServer.runQueueCalls s calls).1.queue =
        s.queue ++ QueueCall.enqueued calls) ∧
    (s.queue = [] → HttpServer.nextPendingConnection s = (none, s)) ∧
    (∀ (head : QSslSocket) (rest : List QSslSocket), s.queue = head :: rest →
      HttpServer.nextPendingConnection s = (some head, { s with queue := rest })) ∧
    (∀ newSocket : QSslSocket,
      (HttpServer.incomingConnection s newSocket true).queue = s.queue ++ [newSocket]) := by
  refine ⟨HttpServer.runQueueCalls_fifo calls s, ?_, ?_, ?_⟩
  · intro h
    simp [HttpServer.nextPendingConnection, h]
  · intro head rest h
    simp [HttpServer.nextPendingConnection, h]
  · intro newSocket
    simp [HttpServer.incomingConnection]

/-- C9. When the decoded frame list is a run of incomplete frames `pre` followed
by a run of completed frames `suf`, one pass of `incomingData` returns. The calls
it has made are, for the frames of `suf` from the last to the first, one call on
each registered listener in registration order, with the wrapper of the socket
and the frame: `onHttpResponseReceived` when the method is empty or begins with
NUL, `onHttpRequestReceived` otherwise; so exactly the completed frames are
delivered, each once, newest first. It has popped exactly those frames, in that
order, one removal per delivery; the frame list is `pre` afterwards, and
`containsHttpProcessedFrames` is false on it. -/
theorem HttpServer.incomingData_completed_suffix
    (httpdecode : List Ihttpframe → List Nat → List Ihttpframe) (t : Transport)
    (clientSocket : QSslSocket) (data : List Nat) (s : HttpServer)
    (pre suf : List Ihttpframe) (hdec : httpdecode s.consumer data = pre ++ suf)
    (hpre : ∀ f ∈ pre, f.isFinishedProcessing = false)
    (hsuf : ∀ f ∈ suf, f.isFinishedProcessing = true) :
    ∃ r, HttpServer.incomingData httpdecode t clientSocket data s = Outcome.returned r ∧
      r.calls = suf.reverse.flatMap (fun frame =>
        s.clientEventListenerList.map (fun listener =>
          if frame.getMethod = [] ∨ frame.getMethod.head? = some (Char.ofNat 0) then
            ListenerCall.onHttpResponseReceived listener { socketClient := some clientSocket }
              frame
          else
            ListenerCall.onHttpRequestReceived listener { socketClient := some clientSocket }
              frame)) ∧
      r.removed = suf.reverse ∧
      r.server.consumer = pre ∧
      HttpServer.containsHttpProcessedFrames r.server.consumer = false := by
  have hd := (HttpServer.dispatchFrames_of_suffix s.clientEventListenerList
    { socketClient := some clientSocket } pre suf hpre hsuf 0).1
  rw [← hdec] at hd
  obtain ⟨r, hr, hc, hrem, hcons, _⟩ :=
    HttpServer.incomingData_of_returned httpdecode t clientSocket data s _ hd
  refine ⟨r, hr, ?_, hrem, hcons, ?_⟩
  · rw [hc]
    show suf.reverse.flatMap (HttpServer.notifyListeners s.clientEventListenerList
      { socketClient := some clientSocket }) = _
    congr 1
    funext frame
    unfold HttpServer.notifyListeners
    by_cases h : strcmp frame.getMethod [] = 0
    · have hm := (strcmp_empty_iff _).1 h
      simp only [if_pos h, if_pos hm]
    · have hm : ¬ (frame.getMethod = [] ∨ frame.getMethod.head? = some (Char.ofNat 0)) :=
        fun hm => h ((strcmp_empty_iff _).2 hm)
      simp only [if_neg h, if_neg hm]
  · rw [hcons]
    exact (HttpServer.containsHttpProcessedFrames_false_iff pre).2 hpre

/-- C9, on the list `[pendingFrame, getFrame, responseFrame]` with listeners 1
and 2: `responseFrame` goes to the response callback of 1 then 2, `getFrame` to
the request callback of 1 then 2, both are popped, `pendingFrame` stays. -/
theorem HttpServer.incomingData_completed_suffix_witness :
    ∃ r, HttpServer.incomingData (fun _ _ => [pendingFrame, getFrame, responseFrame])
        connectedSocket 7 [] { clientEventListenerList := [1, 2] } = Outcome.returned r ∧
      r.calls =
        [ListenerCall.onHttpResponseReceived 1 { socketClient := some 7 } responseFrame,
         ListenerCall.onHttpResponseReceived 2 { socketClient := some 7 } responseFrame,
         ListenerCall.onHttpRequestReceived 1 { socketClient := some 7 } getFrame,
         ListenerCall.onHttpRequestReceived 2 { socketClient := some 7 } getFrame] ∧
      r.removed = [responseFrame, getFrame] ∧
      r.server.consumer = [pendingFrame] ∧
      HttpServer.containsHttpProcessedFrames r.server.consumer = false :=
  HttpServer.incomingData_completed_suffix (fun _ _ => [pendingFrame, getFrame, responseFrame])
    connectedSocket 7 [] { clientEventListenerList := [1, 2] } [pendingFrame]
    [getFrame, responseFrame] rfl (by decide) (by decide)

/-- C8 (fails on the code). On the decoded list `[getFrame, pendingFrame]` the
pass delivers `getFrame` and removes `pendingFrame`: the frame removed is not the
frame delivered, the delivered frame stays in the list, and the incomplete frame
that was in the list before the walk is gone after it. -/
theorem HttpServer.incomingData_removes_undelivered_frame :
    ∃ r, HttpServer.incomingData (fun _ _ => [getFrame, pendingFrame]) connectedSocket 7 []
        { clientEventListenerList := [1] } = Outcome.outOfRange r ∧
      r.calls = [ListenerCall.onHttpRequestReceived 1 { socketClient := some 7 } getFrame] ∧
      r.removed = [pendingFrame] ∧
      pendingFrame.isFinishedProcessing = false ∧
      pendingFrame ∉ r.server.consumer ∧
      getFrame ∈ r.server.consumer :=
  ⟨{ server :=
        { socketClientList := [(7, {})], clientEventListenerList := [1], consumer := [getFrame] }
     calls := [ListenerCall.onHttpRequestReceived 1 { socketClient := some 7 } getFrame]
     removed := [pendingFrame]
     socketCalls := [] },
    by decide, by decide, by decide, by decide, by decide, by decide⟩

/-- C10. The reverse walk always ends: with `size() + 1` units of fuel, or
more, the loop model gives the result of the dispatch block, which is never
"out of fuel". The walk ends by an out-of-range access exactly when some
completed frame sits at a lower position than some incomplete frame, and that
access is `at(-1)`; in every other case the walk returns, all its accesses
having been within bounds. -/
theorem HttpServer.incomingData_walk_out_of_range_iff (listeners : List IClientEventListener)
    (obj : ClientSocket) (fl : List Ihttpframe) :
    (∀ extra : Nat,
      HttpServer.incomingDataLoop listeners obj (fl.length + 1 + extra)
          (HttpServer.walkStart fl) =
        HttpServer.dispatchFrames listeners obj fl) ∧
    HttpServer.dispatchFrames listeners obj fl ≠ Outcome.outOfFuel ∧
    ((∃ st, HttpServer.dispatchFrames listeners obj fl = Outcome.outOfRange st) ↔
      CompletedBelowIncomplete fl) ∧
    (∀ st, HttpServer.dispatchFrames listeners obj fl = Outcome.outOfRange st →
      st.count = -1) ∧
    ((∃ st, HttpServer.dispatchFrames listeners obj fl = Outcome.returned st) ↔
      ¬ CompletedBelowIncomplete fl) := by
  rcases suffix_or_completedBelowIncomplete fl with ⟨pre, suf, rfl, hpre, hsuf⟩ | h
  · have hno := not_completedBelowIncomplete_of_suffix pre suf hpre hsuf
    have hd := (HttpServer.dispatchFrames_of_suffix listeners obj pre suf hpre hsuf 0).1
    refine ⟨fun extra =>
      (HttpServer.dispatchFrames_of_suffix listeners obj pre suf hpre hsuf extra).2, ?_, ?_, ?_, ?_⟩
    · rw [hd]; simp
    · rw [hd]; simp [hno]
    · rw [hd]; intro st hst; simp at hst
    · rw [hd]; simp [hno]
  · have hd := (HttpServer.dispatchFrames_of_completedBelowIncomplete listeners obj fl h 0).1
    refine ⟨fun extra =>
      (HttpServer.dispatchFrames_of_completedBelowIncomplete listeners obj fl h extra).2,
      ?_, ?_, ?_, ?_⟩
    · rw [hd]; simp
    · rw [hd]; simp [h]
    · rw [hd]; intro st hst
      simp only [Outcome.outOfRange.injEq] at hst
      rw [← hst]
    · rw [hd]; simp [h]
